import Mathlib

/-!
Verification of the dataset exporter `create_hdf5` from
`tecplot_tools/hdf.py` (matthiasprobst/tecplot-tools).

The exporter takes an ordered mapping of variable names to dense numeric
arrays, writes an HDF5 container (one dataset per variable; for transient
data one group `Z{it}` per time step), builds the text of a Tecplot
loading script, derives the script's path from the container path, and
returns both paths.

Shallow embedding conventions:
  * numpy arrays are modelled as `NDArray` (shape plus row-major flat data);
  * the ordered dict `variables` is a `List (List Char × NDArray)`
    (Python dicts preserve insertion order);
  * strings/paths are `List Char`; Python exceptions are `PyErr`;
  * `filename` is the already absolutized path string, i.e.
    `str(Path(filename).absolute())`; the time scalars `tstart`/`dt` are
    passed as their formatted text (they are only ever interpolated into
    the script text, never computed with);
  * file-system writes always succeed in the model; what the call wrote
    is returned explicitly in `ExportResult` next to the Python
    return-or-raise outcome.
-/

/-- Python exceptions that the modelled code can raise:
`ValueError` (explicit `raise`, `np.max` of an empty list),
`IndexError` (tuple indexing / `np.take` out of range; also covers
numpy's `AxisError`), and `NameError`/`UnboundLocalError`
(reading a local variable that was never assigned). -/
inductive PyErr
  | valueError
  | indexError
  | nameError
deriving DecidableEq, Repr

/-- A dense numpy array: its shape and its elements in row-major order. -/
structure NDArray where
  shape : List Nat
  data : List Int
deriving DecidableEq, Repr

/-- `a.ndim` of numpy. -/
def NDArray.ndim (a : NDArray) : Nat := a.shape.length

/-- Python tuple indexing `t[i]` with negative-index support:
`t[i]` is `t[len t + i]` for negative `i`; out of range is `IndexError`
(`none`). Used for `v.shape[taxis]`. -/
def pyTupleGet (l : List Nat) (i : Int) : Option Nat :=
  if 0 ≤ i then l.get? i.toNat
  else if i.natAbs ≤ l.length then l.get? (l.length - i.natAbs) else none

/-- numpy axis normalization: an axis argument `ax` is valid for an array
of `nd` dimensions when `-nd ≤ ax < nd`; negative axes count from the
end. -/
def normAxis (ax : Int) (nd : Nat) : Option Nat :=
  if 0 ≤ ax then (if ax.toNat < nd then some ax.toNat else none)
  else if ax.natAbs ≤ nd then some (nd - ax.natAbs) else none

/-- Core of `np.take(data, it, axis=a)` for an already normalized,
in-range axis `a` and index `it`: the slice at index `it` along axis `a`,
whose rank is one lower.  On the flat row-major data this keeps, inside
every outer block, the `it`-th inner chunk. -/
def npTakeArr (d : NDArray) (it a : Nat) : NDArray :=
  let m := (d.shape.get? a).getD 0
  let inner := (d.shape.drop (a + 1)).prod
  let outer := (d.shape.take a).prod
  { shape := d.shape.take a ++ d.shape.drop (a + 1)
    data := (List.range outer).flatMap
      (fun o => (d.data.drop (o * (m * inner) + it * inner)).take inner) }

/-- `np.take(data, it, axis=ax)` with numpy's checks: the axis must be in
`[-ndim, ndim)` and the index `it` below the length of that axis. -/
def npTakeE (d : NDArray) (it : Nat) (ax : Int) : Except PyErr NDArray :=
  match normAxis ax d.ndim with
  | none => Except.error PyErr.indexError
  | some a =>
    match d.shape.get? a with
    | none => Except.error PyErr.indexError
    | some m =>
      if it < m then Except.ok (npTakeArr d it a) else Except.error PyErr.indexError

/-- `data[:]` of numpy: a full basic slice, equal to the array itself;
on a 0-d array it raises `IndexError`. -/
def sliceFull (d : NDArray) : Except PyErr NDArray :=
  if 1 ≤ d.ndim then Except.ok d else Except.error PyErr.indexError

/-- `max_rank = np.max([v.ndim for v in variables.values()])` for a
non-empty variable list (the caller checks emptiness: `np.max` of an
empty list raises). -/
def maxRank (vars : List (List Char × NDArray)) : Nat :=
  (vars.map (fun p => p.2.ndim)).foldl max 0

/-- The `nt` assignment loop of the source, for the transient case:

    for v in variables.values():
        if v.ndim == max_rank:
            if is_transient_data:
                nt = v.shape[taxis]

`nt` ends up holding `shape[taxis]` of the LAST variable of maximal rank
(earlier assignments are overwritten); the accumulator is `none` while
`nt` is still unassigned. -/
def ntStep (t : Int) (mr : Nat) (acc : Option Nat) (p : List Char × NDArray) :
    Except PyErr (Option Nat) :=
  if p.2.ndim = mr then
    match pyTupleGet p.2.shape t with
    | some n => Except.ok (some n)
    | none => Except.error PyErr.indexError
  else Except.ok acc

/-- The whole assignment loop, started with `nt` unassigned. -/
def computeNt (vars : List (List Char × NDArray)) (mr : Nat) (t : Int) :
    Except PyErr (Option Nat) :=
  vars.foldlM (ntStep t mr) none

/-- The nt phase of the function: nothing happens when `taxis is None`,
otherwise the assignment loop above runs. -/
def ntPhase (vars : List (List Char × NDArray)) (mr : Nat)
    (taxis : Option Int) : Except PyErr (Option Nat) :=
  match taxis with
  | none => Except.ok none
  | some t => computeNt vars mr t

/-- Decimal digits of `n`, via repeated division by 10 (fuel-indexed so
that the definition is structural; `n + 1` units of fuel always
suffice).  Mirrors Python's `str(int)` / an f-string `{n}` for the
non-negative integers that occur here. -/
def natReprGo : Nat → Nat → List Char → List Char
  | 0, _, acc => acc
  | fuel + 1, n, acc =>
    if n < 10 then Nat.digitChar n :: acc
    else natReprGo fuel (n / 10) (Nat.digitChar (n % 10) :: acc)

/-- Decimal representation of a natural number, as interpolated by the
source's f-strings. -/
def natRepr (n : Nat) : List Char := natReprGo (n + 1) n []

/-- One stored dataset of the transient write loop: the source slices
with `np.take` exactly when `data.ndim == 4` (a literal 4, not
`max_rank`), and stores the full array otherwise. -/
def storedVal (t : Int) (it : Nat) (d : NDArray) : Except PyErr NDArray :=
  if d.ndim = 4 then npTakeE d it t else Except.ok d

/-- The inner loop `for vname, data in variables.items()` of one time
step: datasets created so far, and the error that interrupted the loop,
if any (`h5py` writes each dataset as it is created, so the datasets
before a failure persist). -/
def writeVarsStep (t : Int) (it : Nat) :
    List (List Char × NDArray) → List (List Char × NDArray) × Option PyErr
  | [] => ([], none)
  | (vn, d) :: rest =>
    match storedVal t it d with
    | Except.error e => ([], some e)
    | Except.ok a =>
      let r := writeVarsStep t it rest
      ((vn, a) :: r.1, r.2)

/-- The outer loop `for it in range(nt)` of the transient write, started
at step index `i` with `k` steps remaining.  Each step contributes the
group `Z{it}` (creating dataset `Z{it}/{vname}` creates the group
`Z{it}`). -/
def writeTransGo (vars : List (List Char × NDArray)) (t : Int) :
    Nat → Nat → List (List Char × List (List Char × NDArray)) × Option PyErr
  | _, 0 => ([], none)
  | i, k + 1 =>
    match writeVarsStep t i vars with
    | (ds, some e) => ([('Z' :: natRepr i, ds)], some e)
    | (ds, none) =>
      let r := writeTransGo vars t (i + 1) k
      (('Z' :: natRepr i, ds) :: r.1, r.2)

/-- The whole transient write phase, `for it in range(nt)`. -/
def writeTransient (vars : List (List Char × NDArray)) (t : Int) (nt : Nat) :
    List (List Char × List (List Char × NDArray)) × Option PyErr :=
  writeTransGo vars t 0 nt

/-- The static write phase: `h5.create_dataset(vname, data=data[:])` for
each variable, at top level. -/
def writeStatic :
    List (List Char × NDArray) → List (List Char × NDArray) × Option PyErr
  | [] => ([], none)
  | (vn, d) :: rest =>
    match sliceFull d with
    | Except.error e => ([], some e)
    | Except.ok a =>
      let r := writeStatic rest
      ((vn, a) :: r.1, r.2)

/-- The written HDF5 container: top-level groups for transient data
(each a named list of named datasets), top-level datasets otherwise. -/
inductive H5File
  | transient (groups : List (List Char × List (List Char × NDArray)))
  | static (dsets : List (List Char × NDArray))
deriving DecidableEq, Repr

/-- `str_zones` of the source: for transient data,

    for it in range(nt):
        str_zones += f'"/Z{it}/" '
-/
def str_zones (nt : Nat) : List Char :=
  (List.range nt).foldl
    (fun acc it => acc ++ ("\"/Z".toList ++ natRepr it ++ "/\" ".toList)) []

/-- `str_variable` of the source:

    for vname in _varnames:
        str_variable += f'"{vname}" '
-/
def str_variable (names : List (List Char)) : List Char :=
  names.foldl (fun acc v => acc ++ ("\"".toList ++ v ++ "\" ".toList)) []

/-- Python string repetition `s * n`. -/
def pyStrMul (s : List Char) : Nat → List Char
  | 0 => []
  | n + 1 => s ++ pyStrMul s n

/-- `str_filename = f'"{filename}" ' * nt` of the source's transient
branch: the quoted container path repeated `nt` times. -/
def str_filename (filename : List Char) (nt : Nat) : List Char :=
  pyStrMul ("\"".toList ++ filename ++ "\" ".toList) nt

/-- The fixed middle of both scripts: the reader options of the
`$!READDATASET` command and the three `$!THREEDAXIS` lines. -/
def mcrCommonTail : List Char :=
  ("  DATASETREADER = \x27HDF5 Loader\x27\n  READDATAOPTION = NEW\n" ++
   "  RESETSTYLE = YES\n  ASSIGNSTRANDIDS = NO\n" ++
   "  INITIALPLOTTYPE = CARTESIAN3D\n  INITIALPLOTFIRSTZONEONLY = NO\n" ++
   "  ADDZONESTOEXISTINGSTRANDS = NO\n  VARLOADMODE = BYNAME\n" ++
   "$\x21THREEDAXIS XDETAIL\x7bVARNUM = 1\x7d\n" ++
   "$\x21THREEDAXIS YDETAIL\x7bVARNUM = 2\x7d\n" ++
   "$\x21THREEDAXIS ZDETAIL\x7bVARNUM = 3\x7d\n").toList

/-- `macro_str` of the source's transient branch (the loading-script
text), with every interpolation spelled out.  `nv` is `nvariables`,
`names` is `_varnames`, `tstart`/`dt` are the formatted time scalars. -/
def mcrTextTransient (filename : List Char) (nt nv : Nat)
    (names : List (List Char)) (tstart dt : List Char) : List Char :=
  "#\x21MC 1410\n$\x21READDATASET  \x27".toList ++
  "\"-F\" \"".toList ++ natRepr nt ++ "\" ".toList ++
  str_filename filename nt ++
  "\"-D\" \"".toList ++ natRepr nt ++ "\" ".toList ++
  str_zones nt ++
  "\"-G\" \"".toList ++ natRepr nv ++ "\"".toList ++
  " ".toList ++ str_variable names ++ " ".toList ++
  "\"-K\" \"1\" \"1\" \"1\"\x27\n".toList ++
  mcrCommonTail ++
  "$\x21EXTENDEDCOMMAND\n   COMMANDPROCESSORID = \x27Strand Editor\x27\n".toList ++
  "COMMAND = \x27ZoneSet=1-".toList ++ natRepr nt ++
  ";MultiZonesPerTime=TRUE;ZoneGrouping=Time;GroupSize=".toList ++ natRepr nt ++
  ";AssignStrands=TRUE;StrandValue=".toList ++ natRepr nt ++
  ";AssignSolutionTime=TRUE;TimeValue=".toList ++ tstart ++
  ";DeltaValue=".toList ++ dt ++
  ";TimeOption=Automatic;\x27".toList

/-- `macro_str` of the source's static branch.  Note the container path
is interpolated unquoted here. -/
def mcrTextStatic (filename : List Char) (nv : Nat)
    (names : List (List Char)) : List Char :=
  "#\x21MC 1410\n$\x21READDATASET  \x27".toList ++
  "\"-F\" \"1\" ".toList ++ filename ++
  " \"-D\" \"".toList ++ natRepr nv ++ "\"".toList ++
  " ".toList ++ str_variable names ++ " ".toList ++
  "\"-K\" \"1\" \"1\" \"1\"\x27\n".toList ++
  mcrCommonTail

/-- `Path.name` of pathlib on an (already normalized absolute) path
string: the part after the last slash. -/
def pyName (s : List Char) : List Char :=
  ((s.reverse.takeWhile (fun c => c ≠ '/')).reverse)

/-- `Path.suffix` of pathlib: with `i = name.rfind('.')`, the suffix is
`name[i:]` when `0 < i < len(name) - 1` and `''` otherwise. -/
def pySuffix (s : List Char) : List Char :=
  let nm := pyName s
  let i := nm.length - 1 - (nm.reverse.indexOf '.')
  if '.' ∈ nm ∧ 0 < i ∧ i < nm.length - 1 then nm.drop i else []

/-- One pass of Python `str.replace(old, new)` for non-empty `old`:
scan left to right, replace every non-overlapping occurrence.  The fuel
argument (any bound of at least the string's length) only makes the
recursion structural. -/
def pyReplaceGo (old new : List Char) : Nat → List Char → List Char
  | 0, s => s
  | _ + 1, [] => []
  | fuel + 1, c :: cs =>
    if old ≠ [] ∧ old.isPrefixOf (c :: cs)
    then new ++ pyReplaceGo old new fuel (cs.drop (old.length - 1))
    else c :: pyReplaceGo old new fuel cs

/-- Python `s.replace(old, new)`: all non-overlapping occurrences of
`old` replaced by `new`; for empty `old`, `new` is inserted before every
character and at the end. -/
def pyReplace (s old new : List Char) : List Char :=
  if old = [] then new ++ s.flatMap (fun c => c :: new)
  else pyReplaceGo old new s.length s

/-- `macro_filename = filename_str.replace(filename.suffix, '.mcr')` of
the source: the script path derived from the container path. -/
def mcrFilename (filename : List Char) : List Char :=
  pyReplace filename (pySuffix filename) (".mcr".toList)

/-- The observable outcome of one `create_hdf5` call: the container file
that was written (if the call got as far as opening it), the script file
that was written, and the Python-level result (the returned pair of
paths, or the exception raised). -/
structure ExportResult where
  container : Option H5File
  mcrFile : Option (List Char × List Char)
  ret : Except PyErr (List Char × List Char)
deriving Repr

/-- The tail of the function after the container write: propagate a
write error, otherwise build the script file when `write_macro` is set.
When `write_macro` is false the source still executes
`return filename, Path(macro_filename)` with `macro_filename` never
assigned, raising `UnboundLocalError` (a `NameError`). -/
def afterWrite (filename : List Char) (cont : H5File) (werr : Option PyErr)
    (txt : List Char) (write_mcr : Bool) : ExportResult :=
  match werr with
  | some e => { container := some cont, mcrFile := none, ret := Except.error e }
  | none =>
    if write_mcr then
      let mp := mcrFilename filename
      { container := some cont, mcrFile := some (mp, txt),
        ret := Except.ok (filename, mp) }
    else
      { container := some cont, mcrFile := none,
        ret := Except.error PyErr.nameError }

/-- The exporter `create_hdf5(filename, variables, taxis, tstart, dt,
write_macro)` of `tecplot_tools/hdf.py`, step for step:
empty `variables` makes `np.max` raise; the `nt` loop runs (and can
raise `IndexError` on `v.shape[taxis]`); ranks above 4 raise
`ValueError` before the container file is opened; then the transient or
static write phase runs, and finally the script phase.  The
`some _, none` case (transient but no variable of maximal rank) cannot
be reached with non-empty `variables`; there Python would raise a
`NameError` on `range(nt)` after having opened (and emptied) the
container file. -/
def create_hdf5 (filename : List Char) (vars : List (List Char × NDArray))
    (taxis : Option Int) (tstart dt : List Char) (write_mcr : Bool) :
    ExportResult :=
  match vars with
  | [] => { container := none, mcrFile := none, ret := Except.error PyErr.valueError }
  | _ :: _ =>
    match ntPhase vars (maxRank vars) taxis with
    | Except.error e => { container := none, mcrFile := none, ret := Except.error e }
    | Except.ok ntOpt =>
      if 4 < maxRank vars then
        { container := none, mcrFile := none, ret := Except.error PyErr.valueError }
      else
        match taxis, ntOpt with
        | some t, some nt =>
          let w := writeTransient vars t nt
          afterWrite filename (H5File.transient w.1) w.2
            (mcrTextTransient filename nt vars.length (vars.map Prod.fst) tstart dt)
            write_mcr
        | some _, none =>
          { container := some (H5File.transient []), mcrFile := none,
            ret := Except.error PyErr.nameError }
        | none, _ =>
          let w := writeStatic vars
          afterWrite filename (H5File.static w.1) w.2
            (mcrTextStatic filename vars.length (vars.map Prod.fst))
            write_mcr

/-! ### Sample inputs for the concrete instances below -/

/-- A rank-2 array of shape `(4, 3)` (the spec's transient scenario). -/
def arrT : NDArray := { shape := [4, 3], data := [0, 1, 2, 3, 4, 5, 6, 7, 8, 9, 10, 11] }

/-- A rank-1 array of shape `(3,)`. -/
def arrX : NDArray := { shape := [3], data := [0, 1, 2] }

/-- A rank-5 array (rank above the allowed 4). -/
def arrR5 : NDArray := { shape := [1, 1, 1, 1, 1], data := [7] }

/-- A rank-4 array of shape `(2, 1, 1, 1)`. -/
def arrU4 : NDArray := { shape := [2, 1, 1, 1], data := [5, 7] }

/-- A rank-1 array of shape `(2,)`. -/
def arrC2 : NDArray := { shape := [2], data := [1, 2] }

/-- A rank-2 array of shape `(2, 3)`. -/
def arrA23 : NDArray := { shape := [2, 3], data := [0, 0, 0, 0, 0, 0] }

/-- A rank-2 array of shape `(5, 1)`. -/
def arrB51 : NDArray := { shape := [5, 1], data := [1, 2, 3, 4, 5] }

/-- Split a text at newline characters (what Python `split('\n')` does);
the text's lines, with a final empty line for a trailing newline. -/
def linesOf : List Char → List (List Char)
  | [] => [[]]
  | c :: cs =>
    if c = '\n' then [] :: linesOf cs
    else
      match linesOf cs with
      | [] => [[c]]
      | l :: ls => (c :: l) :: ls

/-- The variable set of the C1 witness: one rank-4 and one rank-1
variable. -/
def c1vars : List (List Char × NDArray) :=
  [("U".toList, arrU4), ("C".toList, arrC2)]

/-- The groups the transient write produces on `c1vars` with
`taxis=0`, `nt=2`. -/
def c1gs : List (List Char × List (List Char × NDArray)) :=
  [("Z0".toList,
    [("U".toList, { shape := [1, 1, 1], data := [5] }), ("C".toList, arrC2)]),
   ("Z1".toList,
    [("U".toList, { shape := [1, 1, 1], data := [7] }), ("C".toList, arrC2)])]

/-- The groups the transient write produces on the C4 witness input. -/
def c4gs : List (List Char × List (List Char × NDArray)) :=
  [("Z0".toList, [("T".toList, arrT)]),
   ("Z1".toList, [("T".toList, arrT)]),
   ("Z2".toList, [("T".toList, arrT)]),
   ("Z3".toList, [("T".toList, arrT)])]

/-- The variable set of the C10 witness: two rank-2 variables whose
sizes along axis 0 differ (2 and 5). -/
def c10vars : List (List Char × NDArray) :=
  [("A".toList, arrA23), ("B".toList, arrB51)]

/-- The interpolated `$!READDATASET` line of the static script (the text
between the first and second newline of `mcrTextStatic`). -/
def c8Line1 (f : List Char) (nv : Nat) (names : List (List Char)) : List Char :=
  "$\x21READDATASET  \x27\"-F\" \"1\" ".toList ++ f ++ " \"-D\" \"".toList
    ++ natRepr nv ++ "\"".toList ++ " ".toList ++ str_variable names
    ++ " ".toList ++ "\"-K\" \"1\" \"1\" \"1\"\x27".toList

/-! ### General helper lemmas -/

theorem get?_isSome_iff (l : List Nat) (n : Nat) :
    (l.get? n).isSome ↔ n < l.length := by
  simp only [List.get?_eq_getElem?]
  induction l generalizing n with
  | nil => simp
  | cons a l ih =>
    cases n with
    | zero => simp
    | succ m => simpa [Nat.succ_lt_succ_iff] using ih m

/-- Whether Python tuple indexing succeeds depends only on the tuple's
length, not its entries. -/
theorem pyTupleGet_isSome_congr {l l' : List Nat} {t : Int}
    (h : l.length = l'.length) (hs : (pyTupleGet l t).isSome) :
    (pyTupleGet l' t).isSome := by
  unfold pyTupleGet at hs ⊢
  by_cases h0 : 0 ≤ t
  · rw [if_pos h0] at hs ⊢
    rw [get?_isSome_iff] at hs ⊢
    omega
  · rw [if_neg h0] at hs ⊢
    by_cases h1 : t.natAbs ≤ l.length
    · rw [if_pos h1] at hs
      rw [if_pos (show t.natAbs ≤ l'.length by omega)]
      rw [get?_isSome_iff] at hs ⊢
      omega
    · rw [if_neg h1] at hs
      simp at hs

theorem foldl_max_init (l : List Nat) (a : Nat) : a ≤ l.foldl max a := by
  induction l generalizing a with
  | nil => simp
  | cons b l ih => exact le_trans (le_max_left a b) (ih (max a b))

theorem le_foldl_max (l : List Nat) (a x : Nat) (hx : x ∈ l) :
    x ≤ l.foldl max a := by
  induction l generalizing a with
  | nil => cases hx
  | cons b l ih =>
    rcases List.mem_cons.mp hx with rfl | hx'
    · exact le_trans (le_max_right a x) (foldl_max_init l (max a x))
    · exact ih (max a b) hx'

/-- Every variable's rank is bounded by `max_rank`. -/
theorem ndim_le_maxRank {vars : List (List Char × NDArray)}
    {p : List Char × NDArray} (hp : p ∈ vars) : p.2.ndim ≤ maxRank vars :=
  le_foldl_max _ 0 _ (List.mem_map_of_mem _ hp)

/-! ### The nt assignment loop -/

/-- Iterations over variables of non-maximal rank leave `nt` alone. -/
theorem foldlM_ntStep_skip (vars : List (List Char × NDArray)) (t : Int)
    (mr : Nat) (acc : Option Nat) (h : ∀ p ∈ vars, p.2.ndim ≠ mr) :
    vars.foldlM (ntStep t mr) acc = Except.ok acc := by
  induction vars generalizing acc with
  | nil => rfl
  | cons p rest ih =>
    rw [List.foldlM_cons]
    have hp : p.2.ndim ≠ mr := h p (List.mem_cons_self p rest)
    have hstep : ntStep t mr acc p = Except.ok acc := by simp [ntStep, hp]
    rw [hstep]
    exact ih acc (fun q hq => h q (List.mem_cons_of_mem p hq))

/-- The assignment loop never raises when `v.shape[taxis]` is valid for
every variable of rank `mr`. -/
theorem foldlM_ntStep_ok (vars : List (List Char × NDArray)) (t : Int)
    (mr : Nat) (acc : Option Nat)
    (h : ∀ p ∈ vars, p.2.ndim = mr → (pyTupleGet p.2.shape t).isSome) :
    ∃ o, vars.foldlM (ntStep t mr) acc = Except.ok o := by
  induction vars generalizing acc with
  | nil => exact ⟨acc, rfl⟩
  | cons p rest ih =>
    rw [List.foldlM_cons]
    by_cases hp : p.2.ndim = mr
    · obtain ⟨n, hn⟩ :=
        Option.isSome_iff_exists.mp (h p (List.mem_cons_self p rest) hp)
      have hstep : ntStep t mr acc p = Except.ok (some n) := by simp [ntStep, hp, hn]
      rw [hstep]
      exact ih (some n) (fun q hq => h q (List.mem_cons_of_mem p hq))
    · have hstep : ntStep t mr acc p = Except.ok acc := by simp [ntStep, hp]
      rw [hstep]
      exact ih acc (fun q hq => h q (List.mem_cons_of_mem p hq))

/-- The value the assignment loop leaves in `nt` is `shape[taxis]` of
the LAST variable whose rank is `mr`, whatever the initial accumulator:
each later variable of rank `mr` overwrites the earlier assignment. -/
theorem foldlM_ntStep_last (vars : List (List Char × NDArray)) (t : Int)
    (mr : Nat) (acc : Option Nat) (v : List Char × NDArray) (n : Nat)
    (hlast : (vars.filter (fun p => p.2.ndim == mr)).getLast? = some v)
    (hn : pyTupleGet v.2.shape t = some n)
    (hall : ∀ p ∈ vars, p.2.ndim = mr → (pyTupleGet p.2.shape t).isSome) :
    vars.foldlM (ntStep t mr) acc = Except.ok (some n) := by
  induction vars generalizing acc with
  | nil => simp at hlast
  | cons p rest ih =>
    rw [List.foldlM_cons]
    by_cases hp : p.2.ndim = mr
    · have hfp : (p :: rest).filter (fun q => q.2.ndim == mr)
          = p :: rest.filter (fun q => q.2.ndim == mr) := by
        simp [List.filter_cons, hp]
      obtain ⟨m, hm⟩ :=
        Option.isSome_iff_exists.mp (hall p (List.mem_cons_self p rest) hp)
      have hstep : ntStep t mr acc p = Except.ok (some m) := by simp [ntStep, hp, hm]
      rw [hstep]
      show rest.foldlM (ntStep t mr) (some m) = Except.ok (some n)
      by_cases hr : rest.filter (fun q => q.2.ndim == mr) = []
      · have hv : v = p := by
          rw [hfp, hr] at hlast
          simpa using hlast.symm
        have hmn : m = n := by
          rw [hv] at hn
          rw [hn] at hm
          exact (Option.some_inj.mp hm).symm
        subst hmn
        apply foldlM_ntStep_skip
        intro q hq hqmr
        have : q ∈ rest.filter (fun q => q.2.ndim == mr) :=
          List.mem_filter.mpr ⟨hq, by simpa using hqmr⟩
        rw [hr] at this
        cases this
      · have hlast' : (rest.filter (fun q => q.2.ndim == mr)).getLast? = some v := by
          obtain ⟨q, qs, hq⟩ := List.exists_cons_of_ne_nil hr
          rw [hfp, hq] at hlast
          rw [hq]
          rw [List.getLast?_cons_cons] at hlast
          exact hlast
        exact ih (some m) hlast' (fun q hq => hall q (List.mem_cons_of_mem p hq))
    · have hfp : (p :: rest).filter (fun q => q.2.ndim == mr)
          = rest.filter (fun q => q.2.ndim == mr) := by
        simp [List.filter_cons, hp]
      have hstep : ntStep t mr acc p = Except.ok acc := by simp [ntStep, hp]
      rw [hstep]
      rw [hfp] at hlast
      exact ih acc hlast (fun q hq => hall q (List.mem_cons_of_mem p hq))

/-! ### The write phase -/

/-- A successful inner write loop stores one dataset per variable, with
exactly the variables' names in their insertion order. -/
theorem writeVarsStep_ok_names (t : Int) (it : Nat)
    (vars ds : List (List Char × NDArray))
    (h : writeVarsStep t it vars = (ds, none)) :
    ds.map Prod.fst = vars.map Prod.fst := by
  induction vars generalizing ds with
  | nil =>
    cases h
    rfl
  | cons p rest ih =>
    obtain ⟨vn, d⟩ := p
    unfold writeVarsStep at h
    cases hs : storedVal t it d with
    | error e =>
      rw [hs] at h
      cases h
    | ok a =>
      rw [hs] at h
      have h2 : (writeVarsStep t it rest).2 = none := by
        have := congrArg Prod.snd h
        simpa using this
      have h1 : ds = (vn, a) :: (writeVarsStep t it rest).1 := by
        have := congrArg Prod.fst h
        simpa using this.symm
      subst h1
      have := ih (writeVarsStep t it rest).1 (by rw [← h2])
      simp [this]

/-- A successful inner write loop stores, for every variable, the value
`storedVal` prescribes (the `np.take` slice for rank-4 arrays, the full
array otherwise). -/
theorem writeVarsStep_ok_mem (t : Int) (it : Nat)
    (vars ds : List (List Char × NDArray))
    (h : writeVarsStep t it vars = (ds, none)) :
    ∀ p ∈ vars, ∃ a, storedVal t it p.2 = Except.ok a ∧ (p.1, a) ∈ ds := by
  induction vars generalizing ds with
  | nil => intro p hp; cases hp
  | cons q rest ih =>
    obtain ⟨vn, d⟩ := q
    unfold writeVarsStep at h
    cases hs : storedVal t it d with
    | error e =>
      rw [hs] at h
      cases h
    | ok a =>
      rw [hs] at h
      have h2 : (writeVarsStep t it rest).2 = none := by
        have := congrArg Prod.snd h
        simpa using this
      have h1 : ds = (vn, a) :: (writeVarsStep t it rest).1 := by
        have := congrArg Prod.fst h
        simpa using this.symm
      subst h1
      intro p hp
      rcases List.mem_cons.mp hp with rfl | hp'
      · exact ⟨a, hs, List.mem_cons_self _ _⟩
      · obtain ⟨b, hb1, hb2⟩ := ih (writeVarsStep t it rest).1 (by rw [← h2]) p hp'
        exact ⟨b, hb1, List.mem_cons_of_mem _ hb2⟩

/-- A successful outer write loop over steps `i, i+1, …, i+k-1` produces
exactly one group per step, named `Z{it}`, holding what the inner loop
wrote, and every inner loop succeeded. -/
theorem writeTransGo_ok (vars : List (List Char × NDArray)) (t : Int) :
    ∀ (k i : Nat) (gs : List (List Char × List (List Char × NDArray))),
      writeTransGo vars t i k = (gs, none) →
      gs = (List.range' i k).map
          (fun it => ('Z' :: natRepr it, (writeVarsStep t it vars).1))
        ∧ ∀ it ∈ List.range' i k, (writeVarsStep t it vars).2 = none := by
  intro k
  induction k with
  | zero =>
    intro i gs h
    cases h
    simp
  | succ k ih =>
    intro i gs h
    unfold writeTransGo at h
    cases hw : writeVarsStep t i vars with
    | mk ds werr =>
      rw [hw] at h
      cases werr with
      | some e => cases h
      | none =>
        have h2 : (writeTransGo vars t (i + 1) k).2 = none := by
          have := congrArg Prod.snd h
          simpa using this
        have h1 : gs = ('Z' :: natRepr i, ds)
            :: (writeTransGo vars t (i + 1) k).1 := by
          have := congrArg Prod.fst h
          simpa using this.symm
        obtain ⟨hg, hall⟩ := ih (i + 1) (writeTransGo vars t (i + 1) k).1 (by rw [← h2])
        have hds : ds = (writeVarsStep t i vars).1 := by rw [hw]
        constructor
        · rw [h1, List.range'_succ, List.map_cons, ← hg, hds]
        · intro it hit
          rw [List.range'_succ] at hit
          rcases List.mem_cons.mp hit with rfl | hit'
          · rw [hw]
          · exact hall it hit'

/-- When every array has rank at least 1, `data[:]` succeeds everywhere
and the static write stores each variable's full array under its own
name, in order. -/
theorem writeStatic_ok (vars : List (List Char × NDArray))
    (h : ∀ p ∈ vars, 1 ≤ p.2.ndim) : writeStatic vars = (vars, none) := by
  induction vars with
  | nil => rfl
  | cons p rest ih =>
    obtain ⟨vn, d⟩ := p
    have hd : 1 ≤ d.ndim := h (vn, d) (List.mem_cons_self _ _)
    have hs : sliceFull d = Except.ok d := by simp [sliceFull, hd]
    unfold writeStatic
    rw [hs]
    rw [ih (fun q hq => h q (List.mem_cons_of_mem _ hq))]

/-- A normalized axis is a valid dimension index. -/
theorem normAxis_lt {ax : Int} {nd a : Nat} (h : normAxis ax nd = some a) :
    a < nd := by
  unfold normAxis at h
  split at h
  · split at h
    · injection h with h'
      omega
    · cases h
  · split at h
    · injection h with h'
      have hne : ax.natAbs ≠ 0 := by
        intro h0
        rw [Int.natAbs_eq_zero] at h0
        omega
      omega
    · cases h

/-- Slicing a rank-4 array with `np.take` reduces its rank to 3. -/
theorem storedVal_ok_ndim {t : Int} {it : Nat} {d a : NDArray}
    (h4 : d.ndim = 4) (h : storedVal t it d = Except.ok a) : a.ndim = 3 := by
  unfold storedVal at h
  rw [if_pos h4] at h
  unfold npTakeE at h
  split at h
  · cases h
  · rename_i ax hn
    split at h
    · cases h
    · split at h
      · injection h with h'
        have hax : ax < d.ndim := normAxis_lt hn
        have hlen : d.shape.length = 4 := h4
        rw [← h']
        show (npTakeArr d it ax).shape.length = 3
        unfold npTakeArr
        simp only [List.length_append, List.length_take, List.length_drop]
        unfold NDArray.ndim at hax
        omega
      · cases h

/-- When the rank is not 4 the transient loop stores the full array. -/
theorem storedVal_not4 {t : Int} {it : Nat} {d : NDArray}
    (h4 : d.ndim ≠ 4) : storedVal t it d = Except.ok d := by
  simp [storedVal, h4]

/-! ### String helpers -/

theorem foldl_append_join {α : Type} (g : α → List Char) (l : List α)
    (acc : List Char) :
    l.foldl (fun a x => a ++ g x) acc = acc ++ (l.map g).flatten := by
  induction l generalizing acc with
  | nil => simp
  | cons x xs ih =>
    simp only [List.foldl_cons, List.map_cons, List.flatten]
    rw [ih (acc ++ g x)]
    simp [List.append_assoc]

/-- `str_zones` is the group tokens `"/Z0/" "/Z1/" …` joined in the
order of `range(nt)`. -/
theorem str_zones_eq (nt : Nat) :
    str_zones nt
      = ((List.range nt).map
          (fun i => "\"/Z".toList ++ natRepr i ++ "/\" ".toList)).flatten := by
  unfold str_zones
  rw [foldl_append_join]
  simp

/-- `str_variable` is the quoted variable names joined in insertion
order. -/
theorem str_variable_eq (names : List (List Char)) :
    str_variable names
      = (names.map (fun v => "\"".toList ++ v ++ "\" ".toList)).flatten := by
  unfold str_variable
  rw [foldl_append_join]
  simp

/-- `s * n` of Python is `n` copies of `s` joined. -/
theorem pyStrMul_eq_flatten (s : List Char) (n : Nat) :
    pyStrMul s n = (List.replicate n s).flatten := by
  induction n with
  | zero => rfl
  | succ n ih => simp [pyStrMul, List.replicate, ih]

theorem digitChar_ne_nl : ∀ d : Nat, d < 10 → Nat.digitChar d ≠ '\n' := by decide

theorem natReprGo_nl : ∀ (fuel n : Nat) (acc : List Char),
    '\n' ∉ acc → '\n' ∉ natReprGo fuel n acc := by
  intro fuel
  induction fuel with
  | zero => intro n acc h; exact h
  | succ fuel ih =>
    intro n acc h
    unfold natReprGo
    split
    · intro m
      rcases List.mem_cons.mp m with e | m'
      · exact digitChar_ne_nl n (by omega) e.symm
      · exact h m'
    · apply ih
      intro m
      rcases List.mem_cons.mp m with e | m'
      · exact digitChar_ne_nl (n % 10) (Nat.mod_lt n (by omega)) e.symm
      · exact h m'

/-- Formatted numbers contain no newline. -/
theorem natRepr_nl (n : Nat) : '\n' ∉ natRepr n :=
  natReprGo_nl _ _ _ (by simp)

/-- `str_variable` of newline-free names is newline-free. -/
theorem str_variable_nl (names : List (List Char))
    (h : ∀ v ∈ names, '\n' ∉ v) : '\n' ∉ str_variable names := by
  rw [str_variable_eq]
  intro m
  rw [List.mem_flatten] at m
  obtain ⟨l, hl, hm⟩ := m
  rw [List.mem_map] at hl
  obtain ⟨v, hv, rfl⟩ := hl
  rcases List.mem_append.mp hm with h1 | h2
  · rcases List.mem_append.mp h1 with h3 | h4
    · simp at h3
    · exact h v hv h4
  · simp at h2

theorem linesOf_append_nl (s t : List Char) (h : '\n' ∉ s) :
    linesOf (s ++ '\n' :: t) = s :: linesOf t := by
  induction s with
  | nil => simp [linesOf]
  | cons c cs ih =>
    have hc : ¬ c = '\n' := fun e => h (e ▸ List.mem_cons_self c cs)
    have h' : '\n' ∉ cs := fun m => h (List.mem_cons_of_mem _ m)
    simp only [List.cons_append, linesOf, if_neg hc, List.append_eq]
    rw [ih h']

/-- Boolean prefix check extends over appends on the right. -/
theorem nil_isPrefixOf (q : List Char) : List.isPrefixOf [] q = true := by
  cases q <;> rfl

theorem isPrefixOf_ext : ∀ (p s t : List Char),
    p.isPrefixOf s = true → p.isPrefixOf (s ++ t) = true := by
  intro p
  induction p with
  | nil => intro s t _; exact nil_isPrefixOf _
  | cons a as ih =>
    intro s t h
    cases s with
    | nil => simp [List.isPrefixOf] at h
    | cons b bs =>
      simp only [List.isPrefixOf, Bool.and_eq_true, beq_iff_eq] at h
      simp only [List.cons_append, List.isPrefixOf, Bool.and_eq_true, beq_iff_eq]
      exact ⟨h.1, ih bs t h.2⟩

/-- The Boolean prefix check agrees with the prefix relation. -/
theorem isPrefixOf_iff_pre : ∀ (p q : List Char),
    p.isPrefixOf q = true ↔ p <+: q := by
  intro p
  induction p with
  | nil => intro q; simp [nil_isPrefixOf, List.nil_prefix]
  | cons a as ih =>
    intro q
    cases q with
    | nil =>
      simp only [List.isPrefixOf]
      constructor
      · intro h; cases h
      · intro h
        have := h.length_le
        simp at this
    | cons b bs =>
      simp only [List.isPrefixOf, Bool.and_eq_true, beq_iff_eq, List.cons_prefix_cons]
      exact and_congr Iff.rfl (ih bs)

theorem pyReplaceGo_nil (old new : List Char) (fuel : Nat) :
    pyReplaceGo old new fuel [] = [] := by
  cases fuel <;> rfl

theorem isPrefixOf_self : ∀ p : List Char, p.isPrefixOf p = true := by
  intro p
  induction p with
  | nil => rfl
  | cons a as ih => simp [List.isPrefixOf, ih]

/-- If `old` occurs in `a ++ old` only as its final suffix, the
replacement scan rewrites exactly that occurrence. -/
theorem pyReplaceGo_once (old new : List Char) (hold : old ≠ []) :
    ∀ (a : List Char) (fuel : Nat), (a ++ old).length ≤ fuel →
    (∀ i, i < a.length → ¬ old <+: List.drop i (a ++ old)) →
    pyReplaceGo old new fuel (a ++ old) = a ++ new := by
  intro a
  induction a with
  | nil =>
    intro fuel hf _
    obtain ⟨c, cs, rfl⟩ := List.exists_cons_of_ne_nil hold
    simp only [List.nil_append] at hf ⊢
    cases fuel with
    | zero => simp at hf
    | succ fuel =>
      have hpre : (c :: cs).isPrefixOf (c :: cs) = true := isPrefixOf_self _
      simp only [pyReplaceGo, hpre, and_true]
      rw [if_pos (by simp)]
      have hdrop : cs.drop ((c :: cs).length - 1) = [] := by
        simp [List.drop_eq_nil_iff]
      rw [hdrop, pyReplaceGo_nil]
      simp
  | cons x a ih =>
    intro fuel hf honly
    have h1 : ((x :: a) ++ old).length ≤ fuel + 1 := by
      cases fuel with
      | zero => simp at hf
      | succ fuel => omega
    cases fuel with
    | zero => simp at hf
    | succ fuel =>
      have hnp : ¬ old.isPrefixOf (x :: (a ++ old)) = true := by
        intro hp
        exact honly 0 (by simp) (by
          simpa using (isPrefixOf_iff_pre _ _).mp hp)
      simp only [List.cons_append, pyReplaceGo, List.append_eq]
      rw [if_neg (by simp [hnp])]
      have honly' : ∀ i, i < a.length → ¬ old <+: List.drop i (a ++ old) := by
        intro i hi hp
        exact honly (i + 1) (by simp; omega) (by simpa using hp)
      have hf' : (a ++ old).length ≤ fuel := by
        simp only [List.cons_append, List.length_cons] at hf
        simpa using Nat.le_of_succ_le_succ hf
      rw [ih fuel hf' honly']

/-! ### Unfolding `create_hdf5` -/

theorem afterWrite_container (f : List Char) (cont : H5File)
    (werr : Option PyErr) (txt : List Char) (wm : Bool) :
    (afterWrite f cont werr txt wm).container = some cont := by
  cases werr with
  | some e => rfl
  | none => cases wm <;> rfl

/-- On a valid transient call, `create_hdf5` is the transient write
followed by the script phase. -/
theorem create_hdf5_transient_eq (f : List Char)
    (vars : List (List Char × NDArray)) (t : Int) (ts dt : List Char)
    (wm : Bool) (nt : Nat)
    (hrank : ¬ 4 < maxRank vars) (hne : vars ≠ [])
    (hnt : computeNt vars (maxRank vars) t = Except.ok (some nt)) :
    create_hdf5 f vars (some t) ts dt wm
      = afterWrite f (H5File.transient (writeTransient vars t nt).1)
          (writeTransient vars t nt).2
          (mcrTextTransient f nt vars.length (vars.map Prod.fst) ts dt) wm := by
  cases vars with
  | nil => exact absurd rfl hne
  | cons q qs => simp only [create_hdf5, ntPhase, hnt, if_neg hrank]

/-- On a valid static call, `create_hdf5` is the static write followed
by the script phase. -/
theorem create_hdf5_static_eq (f : List Char)
    (vars : List (List Char × NDArray)) (ts dt : List Char) (wm : Bool)
    (hrank : ¬ 4 < maxRank vars) (hne : vars ≠ []) :
    create_hdf5 f vars none ts dt wm
      = afterWrite f (H5File.static (writeStatic vars).1) (writeStatic vars).2
          (mcrTextStatic f vars.length (vars.map Prod.fst)) wm := by
  cases vars with
  | nil => exact absurd rfl hne
  | cons q qs => simp only [create_hdf5, ntPhase, if_neg hrank]

/-! ### Claim theorems -/

/-- Claim C2 (code bug evidence): with `write_macro=False` on an
otherwise valid static input, the source writes the container but then
executes `return filename, Path(macro_filename)` with `macro_filename`
never assigned, so the call raises an unbound-name error instead of
returning the container path: the container dataset is written, no
script file is produced, and the Python-level outcome is the
`NameError`. -/
theorem c2_write_mcr_false_name_error :
    create_hdf5 ("/tmp/x.h5".toList) [("X".toList, arrX)] none
        ("0".toList) ("1".toList) false
      = { container := some (H5File.static [("X".toList, arrX)]),
          mcrFile := none,
          ret := Except.error PyErr.nameError } := by
  rfl

/-- Claim C9: a static call (`time_axis=None`) produces results that do
not depend on `time_start` and `time_delta` at all: two runs differing
only in those two arguments write the same container, the same script
file, and return the same value. -/
theorem c9_static_time_params_irrelevant (f : List Char)
    (vars : List (List Char × NDArray)) (ts1 dt1 ts2 dt2 : List Char)
    (wm : Bool) :
    create_hdf5 f vars none ts1 dt1 wm = create_hdf5 f vars none ts2 dt2 wm := by
  cases vars with
  | nil => rfl
  | cons q qs =>
    by_cases hr : 4 < maxRank (q :: qs)
    · simp only [create_hdf5, ntPhase, if_pos hr]
    · simp only [create_hdf5, ntPhase, if_neg hr]

/-- Claim C3: whenever some variable's rank exceeds 4 (and the time
axis, if given, is a valid axis index for the maximal-rank arrays, as
the contract requires), the call fails with the rank `ValueError`; the
check happens before the container file is opened, so neither the
container nor the script file is created. -/
theorem c3_rank_gt4_validation_error (f : List Char)
    (vars : List (List Char × NDArray)) (taxis : Option Int)
    (ts dt : List Char) (wm : Bool)
    (hbig : ∃ p ∈ vars, 4 < p.2.ndim)
    (htax : ∀ t, taxis = some t →
      ∀ p ∈ vars, p.2.ndim = maxRank vars → (pyTupleGet p.2.shape t).isSome) :
    create_hdf5 f vars taxis ts dt wm
      = { container := none, mcrFile := none,
          ret := Except.error PyErr.valueError } := by
  obtain ⟨p0, hp0, hbig⟩ := hbig
  have hmr : 4 < maxRank vars := lt_of_lt_of_le hbig (ndim_le_maxRank hp0)
  cases vars with
  | nil => cases hp0
  | cons q qs =>
    have hnt : ∃ o, ntPhase (q :: qs) (maxRank (q :: qs)) taxis = Except.ok o := by
      cases taxis with
      | none => exact ⟨none, rfl⟩
      | some t => exact foldlM_ntStep_ok _ t _ none (htax t rfl)
    obtain ⟨o, hnt⟩ := hnt
    simp only [create_hdf5, hnt, if_pos hmr]

/-- Witness for C3 at a concrete input: one rank-5 variable, no time
axis. -/
theorem c3_witness :
    (∃ p ∈ [("A".toList, arrR5)], 4 < p.2.ndim)
    ∧ create_hdf5 ("/tmp/x.h5".toList) [("A".toList, arrR5)] none
        ("0".toList) ("1".toList) true
      = { container := none, mcrFile := none,
          ret := Except.error PyErr.valueError } :=
  ⟨by decide,
   c3_rank_gt4_validation_error _ _ _ _ _ _ (by decide) (by intro t h; cases h)⟩

/-- Claim C1 counterexample: the spec's own transient scenario,
`variables = {"T": array of shape (4, 3)}` with `time_axis=0`.  The
maximal rank is 2, so the claim requires each group `Z0..Z3` to hold the
slice of shape `(3,)`; the code instead tests `data.ndim == 4` and
stores the full `(4, 3)` array in every group. -/
theorem c1_transient_rank2_not_sliced :
    (create_hdf5 ("/tmp/x.h5".toList) [("T".toList, arrT)] (some 0)
        ("0".toList) ("1".toList) true).container
      = some (H5File.transient ((List.range 4).map
          (fun i => ('Z' :: natRepr i, [("T".toList, arrT)]))))
    ∧ arrT.shape ≠ [3] := by
  constructor
  · rfl
  · decide

/-- Claim C1 as amended: in a successful transient write, group `Zit`
stores, for each variable, the `np.take` slice at index `it` along
`time_axis` exactly when the variable's rank is 4 (with the rank reduced
to 3), and the full unchanged input array whenever the rank differs
from 4 — even if that rank is the maximum of the set. -/
theorem c1_amended_slice_only_rank4 (vars : List (List Char × NDArray))
    (t : Int) (nt : Nat) (gs : List (List Char × List (List Char × NDArray)))
    (hw : writeTransient vars t nt = (gs, none)) :
    ∀ it < nt, ∃ ds, gs.get? it = some ('Z' :: natRepr it, ds)
      ∧ ∀ p ∈ vars,
          (p.2.ndim ≠ 4 → (p.1, p.2) ∈ ds)
          ∧ (p.2.ndim = 4 →
              ∃ a, npTakeE p.2 it t = Except.ok a ∧ (p.1, a) ∈ ds ∧ a.ndim = 3) := by
  obtain ⟨hg, hall⟩ := writeTransGo_ok vars t nt 0 gs hw
  intro it hit
  have hmem : it ∈ List.range' 0 nt := by
    rw [← List.range_eq_range', List.mem_range]
    exact hit
  have hok : (writeVarsStep t it vars).2 = none := hall it hmem
  have heq : writeVarsStep t it vars = ((writeVarsStep t it vars).1, none) := by
    rw [← hok]
  have hget : gs.get? it = some ('Z' :: natRepr it, (writeVarsStep t it vars).1) := by
    rw [hg, ← List.range_eq_range', List.get?_eq_getElem?, List.getElem?_map,
      List.getElem?_range hit]
    rfl
  refine ⟨(writeVarsStep t it vars).1, hget, ?_⟩
  intro p hp
  obtain ⟨a, ha, hamem⟩ := writeVarsStep_ok_mem t it vars _ heq p hp
  constructor
  · intro h4
    have : storedVal t it p.2 = Except.ok p.2 := storedVal_not4 h4
    rw [this] at ha
    injection ha with ha'
    rw [← ha'] at hamem
    exact hamem
  · intro h4
    have hsv : storedVal t it p.2 = npTakeE p.2 it t := by
      simp [storedVal, h4]
    refine ⟨a, by rw [← hsv]; exact ha, hamem, ?_⟩
    exact storedVal_ok_ndim h4 ha

/-- Witness for the amended C1 on a concrete mixed-rank transient
input. -/
theorem c1_amended_witness :
    writeTransient c1vars 0 2 = (c1gs, none)
    ∧ ∀ it < 2, ∃ ds, c1gs.get? it = some ('Z' :: natRepr it, ds)
      ∧ ∀ p ∈ c1vars,
          (p.2.ndim ≠ 4 → (p.1, p.2) ∈ ds)
          ∧ (p.2.ndim = 4 →
              ∃ a, npTakeE p.2 it 0 = Except.ok a ∧ (p.1, a) ∈ ds ∧ a.ndim = 3) :=
  ⟨by decide, c1_amended_slice_only_rank4 c1vars 0 2 c1gs (by decide)⟩

/-- Claim C4: a successful transient call writes exactly `nt` top-level
groups, named `Z0 .. Z(nt-1)` in order and nothing else, and each group
holds exactly one dataset per variable carrying the variable's name, in
insertion order. -/
theorem c4_transient_group_layout (f : List Char)
    (vars : List (List Char × NDArray)) (t : Int) (ts dt : List Char)
    (wm : Bool) (nt : Nat) (gs : List (List Char × List (List Char × NDArray)))
    (hrank : maxRank vars ≤ 4)
    (hnt : computeNt vars (maxRank vars) t = Except.ok (some nt))
    (hw : writeTransient vars t nt = (gs, none)) :
    (create_hdf5 f vars (some t) ts dt wm).container
        = some (H5File.transient gs)
    ∧ gs.length = nt
    ∧ gs.map Prod.fst = (List.range nt).map (fun i => 'Z' :: natRepr i)
    ∧ ∀ g ∈ gs, g.2.map Prod.fst = vars.map Prod.fst := by
  have hne : vars ≠ [] := by
    intro h
    subst h
    exact Option.noConfusion (Except.ok.inj hnt)
  obtain ⟨hg, hall⟩ := writeTransGo_ok vars t nt 0 gs hw
  refine ⟨?_, ?_, ?_, ?_⟩
  · rw [create_hdf5_transient_eq f vars t ts dt wm nt (not_lt.mpr hrank) hne hnt,
      hw]
    exact afterWrite_container _ _ _ _ _
  · rw [hg]
    simp
  · rw [hg, ← List.range_eq_range', List.map_map]
    rfl
  · intro g hgmem
    rw [hg] at hgmem
    rw [List.mem_map] at hgmem
    obtain ⟨it, hit, rfl⟩ := hgmem
    refine writeVarsStep_ok_names t it vars _ ?_
    rw [← hall it hit]

/-- Witness for C4 on the concrete `(4, 3)` transient input. -/
theorem c4_witness :
    maxRank [("T".toList, arrT)] ≤ 4
    ∧ ((create_hdf5 ("/tmp/x.h5".toList) [("T".toList, arrT)] (some 0)
          ("0".toList) ("1".toList) true).container
        = some (H5File.transient c4gs)
      ∧ c4gs.length = 4
      ∧ c4gs.map Prod.fst = (List.range 4).map (fun i => 'Z' :: natRepr i)
      ∧ ∀ g ∈ c4gs, g.2.map Prod.fst = [("T".toList, arrT)].map Prod.fst) :=
  ⟨by decide,
   c4_transient_group_layout _ _ _ _ _ _ _ _ (by decide) (by rfl) (by rfl)⟩

/-- Claim C5: a static call (`time_axis=None`) on a non-empty variable
set of rank between 1 and 4 writes exactly one top-level dataset per
variable, named after the variable and equal to the input array; the
written container is literally the input mapping. -/
theorem c5_static_datasets (f : List Char)
    (vars : List (List Char × NDArray)) (ts dt : List Char) (wm : Bool)
    (hne : vars ≠ [])
    (hrank : maxRank vars ≤ 4)
    (hnd : ∀ p ∈ vars, 1 ≤ p.2.ndim) :
    (create_hdf5 f vars none ts dt wm).container = some (H5File.static vars) := by
  rw [create_hdf5_static_eq f vars ts dt wm (not_lt.mpr hrank) hne,
    writeStatic_ok vars hnd]
  exact afterWrite_container _ _ _ _ _

/-- Witness for C5 on a concrete two-variable static input. -/
theorem c5_witness :
    ([("X".toList, arrX), ("C".toList, arrC2)] ≠ ([] : List (List Char × NDArray)))
    ∧ maxRank [("X".toList, arrX), ("C".toList, arrC2)] ≤ 4
    ∧ (create_hdf5 ("/tmp/x.h5".toList) [("X".toList, arrX), ("C".toList, arrC2)]
          none ("0".toList) ("1".toList) true).container
      = some (H5File.static [("X".toList, arrX), ("C".toList, arrC2)]) :=
  ⟨by decide, by decide,
   c5_static_datasets _ _ _ _ _ (by decide) (by decide) (by decide)⟩

/-- Claim C6 counterexample: for the container path `/a.h5/b.h5` the
suffix is `.h5`, and `str.replace` rewrites BOTH occurrences, so the
returned script path is `/a.mcr/b.mcr`, not the claimed `/a.h5/b.mcr`
with only the final extension replaced. -/
theorem c6_suffix_replace_counterexample :
    (create_hdf5 ("/a.h5/b.h5".toList) [("X".toList, arrX)] none
        ("0".toList) ("1".toList) true).ret
      = Except.ok ("/a.h5/b.h5".toList, "/a.mcr/b.mcr".toList)
    ∧ ("/a.mcr/b.mcr".toList : List Char) ≠ "/a.h5/b.mcr".toList := by
  constructor
  · rfl
  · decide

/-- Claim C6 as amended: the script path is the container path with
EVERY left-to-right non-overlapping occurrence of the suffix string
replaced by `.mcr`; in particular, when the suffix occurs in the path
only as the final extension, the result is exactly the path with its
extension replaced and the rest unchanged. -/
theorem c6_amended_replace_all (f stem : List Char)
    (hne : pySuffix f ≠ [])
    (hsplit : f = stem ++ pySuffix f)
    (honly : ∀ i, i < stem.length → ¬ pySuffix f <+: List.drop i f) :
    mcrFilename f = stem ++ ".mcr".toList := by
  unfold mcrFilename pyReplace
  rw [if_neg hne]
  generalize hsfx : pySuffix f = sfx at hne hsplit honly
  rw [hsplit]
  apply pyReplaceGo_once sfx (".mcr".toList) hne stem (stem ++ sfx).length le_rfl
  intro i hi hp
  apply honly i hi
  rw [hsplit]
  exact hp

/-- Witness for the amended C6 on a well-behaved concrete path. -/
theorem c6_amended_witness :
    pySuffix ("/tmp/data.h5".toList) ≠ []
    ∧ mcrFilename ("/tmp/data.h5".toList) = "/tmp/data".toList ++ ".mcr".toList :=
  ⟨by decide,
   c6_amended_replace_all ("/tmp/data.h5".toList) ("/tmp/data".toList)
     (by decide) (by decide) (by decide)⟩

/-- Claim C10: when several variables attain the maximal rank, the `nt`
the assignment loop leaves behind is `shape[taxis]` of the LAST
maximal-rank variable in insertion order; the loop overwrote every
earlier assignment, so earlier variables' time lengths cannot influence
it. -/
theorem c10_nt_last_max_rank (vars : List (List Char × NDArray)) (t : Int)
    (v : List Char × NDArray) (n : Nat)
    (htwo : 2 ≤ (vars.filter (fun p => p.2.ndim == maxRank vars)).length)
    (hlast : (vars.filter (fun p => p.2.ndim == maxRank vars)).getLast? = some v)
    (hn : pyTupleGet v.2.shape t = some n) :
    computeNt vars (maxRank vars) t = Except.ok (some n) := by
  have hvmem : v ∈ vars.filter (fun p => p.2.ndim == maxRank vars) := by
    have hne : vars.filter (fun p => p.2.ndim == maxRank vars) ≠ [] := by
      intro h
      rw [h] at hlast
      cases hlast
    rw [List.getLast?_eq_getLast _ hne] at hlast
    injection hlast with h
    rw [← h]
    exact List.getLast_mem hne
  have hvmr : v.2.ndim = maxRank vars := by
    have := List.of_mem_filter hvmem
    simpa using this
  have hall : ∀ p ∈ vars, p.2.ndim = maxRank vars →
      (pyTupleGet p.2.shape t).isSome := by
    intro p hp hpmr
    have hlen : v.2.shape.length = p.2.shape.length := by
      show v.2.ndim = p.2.ndim
      rw [hvmr, hpmr]
    have hsome : (pyTupleGet v.2.shape t).isSome := by
      rw [hn]
      rfl
    exact pyTupleGet_isSome_congr hlen hsome
  exact foldlM_ntStep_last vars t (maxRank vars) none v n hlast hn hall

/-- Witness for C10: on `c10vars` with `taxis=0` the loop leaves
`nt = 5`, the time length of the LAST rank-2 variable `B`, not the 2 of
the earlier one. -/
theorem c10_witness :
    2 ≤ (c10vars.filter (fun p => p.2.ndim == maxRank c10vars)).length
    ∧ (c10vars.filter (fun p => p.2.ndim == maxRank c10vars)).getLast?
        = some ("B".toList, arrB51)
    ∧ computeNt c10vars (maxRank c10vars) 0 = Except.ok (some 5) :=
  ⟨by decide, by decide,
   c10_nt_last_max_rank c10vars 0 ("B".toList, arrB51) 5
     (by decide) (by decide) (by decide)⟩

/-- Claim C7: in the transient script text, the zone list is the tokens
`"/Z0/" "/Z1/" …` for the indices `0 .. nt-1` taken in their strictly
increasing `range` order; the container path token is repeated exactly
`nt` times; and the `$!READDATASET` header carries `"-F" "<nt>"` and
`"-D" "<nt>"`. -/
theorem c7_transient_script_structure (f : List Char) (nt nv : Nat)
    (names : List (List Char)) (ts dt : List Char) :
    str_zones nt = ((List.range nt).map
        (fun i => "\"/Z".toList ++ natRepr i ++ "/\" ".toList)).flatten
    ∧ List.Pairwise (· < ·) (List.range nt)
    ∧ str_filename f nt
        = (List.replicate nt ("\"".toList ++ f ++ "\" ".toList)).flatten
    ∧ (∃ a b, mcrTextTransient f nt nv names ts dt
        = a ++ ("\"-F\" \"".toList ++ natRepr nt ++ "\" ".toList) ++ b)
    ∧ (∃ a b, mcrTextTransient f nt nv names ts dt
        = a ++ ("\"-D\" \"".toList ++ natRepr nt ++ "\" ".toList) ++ b)
    ∧ (∃ a b, mcrTextTransient f nt nv names ts dt
        = a ++ str_filename f nt ++ b)
    ∧ (∃ a b, mcrTextTransient f nt nv names ts dt
        = a ++ str_zones nt ++ b) := by
  refine ⟨str_zones_eq nt, List.pairwise_lt_range nt, ?_, ?_, ?_, ?_, ?_⟩
  · unfold str_filename
    exact pyStrMul_eq_flatten _ nt
  · exact ⟨"#\x21MC 1410\n$\x21READDATASET  \x27".toList, _,
      by simp only [mcrTextTransient, List.append_assoc]; rfl⟩
  · exact ⟨"#\x21MC 1410\n$\x21READDATASET  \x27".toList
        ++ "\"-F\" \"".toList ++ natRepr nt ++ "\" ".toList
        ++ str_filename f nt, _,
      by simp only [mcrTextTransient, List.append_assoc]; rfl⟩
  · exact ⟨"#\x21MC 1410\n$\x21READDATASET  \x27".toList
        ++ "\"-F\" \"".toList ++ natRepr nt ++ "\" ".toList, _,
      by simp only [mcrTextTransient, List.append_assoc]; rfl⟩
  · exact ⟨"#\x21MC 1410\n$\x21READDATASET  \x27".toList
        ++ "\"-F\" \"".toList ++ natRepr nt ++ "\" ".toList
        ++ str_filename f nt
        ++ "\"-D\" \"".toList ++ natRepr nt ++ "\" ".toList, _,
      by simp only [mcrTextTransient, List.append_assoc]; rfl⟩

/-- The static script split at its first two newlines. -/
theorem mcrTextStatic_reshape (f : List Char) (nv : Nat)
    (names : List (List Char)) :
    mcrTextStatic f nv names
      = "#\x21MC 1410".toList ++ '\n' :: (c8Line1 f nv names ++ '\n' :: mcrCommonTail) := by
  simp only [mcrTextStatic, c8Line1, List.append_assoc]
  rfl

theorem c8Line1_nl (f : List Char) (nv : Nat) (names : List (List Char))
    (hf : '\n' ∉ f) (hn : ∀ v ∈ names, '\n' ∉ v) :
    '\n' ∉ c8Line1 f nv names := by
  unfold c8Line1
  intro h
  simp only [List.append_assoc, List.mem_append] at h
  rcases h with h | h | h | h | h | h | h | h | h
  · exact (by decide : ('\n' ∉ "$\x21READDATASET  \x27\"-F\" \"1\" ".toList)) h
  · exact hf h
  · exact (by decide : ('\n' ∉ " \"-D\" \"".toList)) h
  · exact natRepr_nl nv h
  · exact (by decide : ('\n' ∉ "\"".toList)) h
  · exact (by decide : ('\n' ∉ " ".toList)) h
  · exact str_variable_nl names hn h
  · exact (by decide : ('\n' ∉ " ".toList)) h
  · exact (by decide : ('\n' ∉ "\"-K\" \"1\" \"1\" \"1\"\x27".toList)) h

/-- Claim C8: in the static script (with newline-free path and names,
as real paths and variable names are), the text has exactly one line
that is a `$!READDATASET` command; the header carries `"-D" "<N>"` with
`N` the number of variables; and the variable tokens are the quoted
names joined in the mapping's insertion order, appearing verbatim in the
script. -/
theorem c8_static_readdataset_line (f : List Char)
    (vars : List (List Char × NDArray))
    (hf : '\n' ∉ f) (hn : ∀ v ∈ vars.map Prod.fst, '\n' ∉ v) :
    (linesOf (mcrTextStatic f vars.length (vars.map Prod.fst))).countP
        (fun l => ("$\x21READDATASET".toList).isPrefixOf l) = 1
    ∧ (∃ a b, mcrTextStatic f vars.length (vars.map Prod.fst)
        = a ++ (" \"-D\" \"".toList ++ natRepr vars.length ++ "\"".toList) ++ b)
    ∧ str_variable (vars.map Prod.fst)
        = ((vars.map Prod.fst).map
            (fun v => "\"".toList ++ v ++ "\" ".toList)).flatten
    ∧ (∃ a b, mcrTextStatic f vars.length (vars.map Prod.fst)
        = a ++ str_variable (vars.map Prod.fst) ++ b) := by
  refine ⟨?_, ?_, str_variable_eq _, ?_⟩
  · have hL1 : '\n' ∉ c8Line1 f vars.length (vars.map Prod.fst) :=
      c8Line1_nl f vars.length (vars.map Prod.fst) hf hn
    rw [mcrTextStatic_reshape,
      linesOf_append_nl _ _ (by decide),
      linesOf_append_nl _ _ hL1]
    have h0 : (linesOf mcrCommonTail).countP
        (fun l => ("$\x21READDATASET".toList).isPrefixOf l) = 0 := by decide
    have hl0 : (("$\x21READDATASET".toList).isPrefixOf ("#\x21MC 1410".toList)) = false := by
      decide
    have hl1 : (("$\x21READDATASET".toList).isPrefixOf
        (c8Line1 f vars.length (vars.map Prod.fst))) = true := by
      unfold c8Line1
      simp only [List.append_assoc]
      exact isPrefixOf_ext _ _ _ (by decide)
    simp only [List.countP_cons, h0, hl1, hl0]
    norm_num
  · exact ⟨"#\x21MC 1410\n$\x21READDATASET  \x27".toList
        ++ "\"-F\" \"1\" ".toList ++ f, _,
      by simp only [mcrTextStatic, List.append_assoc]; rfl⟩
  · exact ⟨"#\x21MC 1410\n$\x21READDATASET  \x27".toList
        ++ "\"-F\" \"1\" ".toList ++ f
        ++ " \"-D\" \"".toList ++ natRepr vars.length ++ "\"".toList
        ++ " ".toList, _,
      by simp only [mcrTextStatic, List.append_assoc]; rfl⟩

/-- Witness for C8 on a concrete two-variable static input. -/
theorem c8_witness :
    ('\n' ∉ "/tmp/st.h5".toList)
    ∧ (∀ v ∈ ([("X".toList, arrX), ("C".toList, arrC2)].map Prod.fst), '\n' ∉ v)
    ∧ (linesOf (mcrTextStatic ("/tmp/st.h5".toList)
          ([("X".toList, arrX), ("C".toList, arrC2)].length)
          ([("X".toList, arrX), ("C".toList, arrC2)].map Prod.fst))).countP
        (fun l => ("$\x21READDATASET".toList).isPrefixOf l) = 1 :=
  ⟨by decide, by decide,
   (c8_static_readdataset_line ("/tmp/st.h5".toList)
     [("X".toList, arrX), ("C".toList, arrC2)] (by decide) (by decide)).1⟩
